import Mathlib

/-!
# `comp_nonsepwin2multi` (LTFAT, Octave interface)

A shallow embedding of `oct/comp_nonsepwin2multi.cc`: the helper `ltfat_round`
and the `DEFUN_DLD` body, which reads its four arguments, rounds the two
lattice-type entries, allocates an `L × lt2` complex matrix, hands it to the C
routine `nonsepwin2multi` and returns it.

Conventions of the embedding.

* A finite `double` is the rational number it denotes.  Addition of doubles is
  exact addition followed by rounding to the nearest binary64 value, ties to
  even (`fl`).  NaN and the infinities are not values of the model; a sum
  beyond the binary64 range is left as the large rational `fl` yields, which
  the conversion to `int` rejects in any case.
* `(int) d` truncates toward zero and has no defined result when the truncated
  value is not an `int`; the embedding returns `none` there.
* `int` is 32 bits wide.
* A call of the wrapper yields `some m` when it returns the matrix `m`, and
  `none` when the C++ has no defined result: an element of `lt` that does not
  exist, a conversion out of range, a negative column count.  Storage is
  unbounded.
* The C routine `nonsepwin2multi` is not part of the sources.  It enters the
  wrapper as a parameter: the content it leaves in each cell of the output
  buffer, as a function of the arguments it is called with.
-/

namespace Ltfat

/-! ## IEEE 754 binary64 arithmetic -/

/-- Nearest integer to `r`, a tie going to the even neighbour. -/
def roundEven (r : ℚ) : ℤ :=
  if r - ⌊r⌋ < 1 / 2 then ⌊r⌋
  else if 1 / 2 < r - ⌊r⌋ then ⌊r⌋ + 1
  else if ⌊r⌋ % 2 = 0 then ⌊r⌋ else ⌊r⌋ + 1

/-- Spacing of the binary64 values around `q`: `2 ^ (e - 52)` where
`2 ^ e ≤ |q| < 2 ^ (e + 1)`, the exponent not going below `-1022` (subnormal
range). -/
def ulp (q : ℚ) : ℚ := (2 : ℚ) ^ (max (Int.log 2 |q|) (-1022) - 52)

/-- Rounding of a real number to binary64, round-to-nearest, ties-to-even. -/
def fl (q : ℚ) : ℚ := roundEven (q / ulp q) * ulp q

/-- The C expression `x + y` on two `double` operands. -/
def dadd (x y : ℚ) : ℚ := fl (x + y)

/-- Truncation toward zero. -/
def truncate (d : ℚ) : ℤ := if 0 ≤ d then ⌊d⌋ else ⌈d⌉

/-- Least value of a C `int`. -/
def INT_MIN : ℤ := -2147483648

/-- Greatest value of a C `int`. -/
def INT_MAX : ℤ := 2147483647

/-- The C conversion `(int) d` of a `double`: the fractional part is
discarded; there is no result when the truncated value is not an `int`. -/
def toInt (d : ℚ) : Option ℤ :=
  if INT_MIN ≤ truncate d ∧ truncate d ≤ INT_MAX then some (truncate d) else none

/-! ## `ltfat_round` -/

/-- The source:
`static inline int ltfat_round(double x) { return (int)(x+.5); }` -/
def ltfat_round (x : ℚ) : Option ℤ := toInt (dadd x (1 / 2))

/-! ## Octave arrays -/

/-- An Octave two-dimensional array: its dimensions and its elements in
column-major order, the order `fortran_vec ()` and `data ()` expose. -/
structure NDArray (α : Type) where
  rows : ℕ
  cols : ℕ
  data : List α
  size_eq : data.length = rows * cols

/-- A complex double: real part and imaginary part. -/
abbrev ltfat_complex : Type := ℚ × ℚ

/-- Octave `ComplexMatrix`. -/
abbrev ComplexMatrix : Type := NDArray ltfat_complex

/-- Octave real `Matrix`. -/
abbrev RealMatrix : Type := NDArray ℚ

/-- An `n × 1` array holding `xs`. -/
def NDArray.columnVector {α : Type} (xs : List α) : NDArray α :=
  ⟨xs.length, 1, xs, by simp⟩

/-- A `1 × n` array holding `xs`, the value of an Octave literal `[x, y]`. -/
def NDArray.rowVector {α : Type} (xs : List α) : NDArray α :=
  ⟨1, xs.length, xs, by simp⟩

/-- Linear indexing `m(k)`; no result for an element that does not exist. -/
def NDArray.elem {α : Type} (m : NDArray α) (k : ℕ) : Option α := m.data[k]?

/-- Column `j` of the array. -/
def NDArray.column {α : Type} (m : NDArray α) (j : ℕ) : List α :=
  (m.data.drop (j * m.rows)).take m.rows

/-! ## The wrapper -/

/-- The effect of the C routine
`nonsepwin2multi (g, L, a, M, lt1, lt2, mwin)`: given the window storage and
the five integer arguments, the value found in cell `k` of `mwin` when the
routine returns. -/
abbrev Kernel : Type := List ltfat_complex → ℤ → ℤ → ℤ → ℤ → ℤ → ℕ → ltfat_complex

/-- The statements `ComplexMatrix mwin(L,lt2);` and the kernel call writing
through `mwin.data()`: the matrix keeps the dimensions it was allocated with,
and each of its `r * c` cells holds what the kernel left there. -/
def filled (r c : ℕ) (content : ℕ → ltfat_complex) : ComplexMatrix :=
  ⟨r, c, List.ofFn (fun k : Fin (r * c) => content k), by simp⟩

/-- The body of `DEFUN_DLD (comp_nonsepwin2multi, args, , ...)`, its arguments
already extracted: `g = args(0).complex_matrix_value()`,
`a = args(1).int_value()`, `M = args(2).int_value()` (stored in a `double`,
which holds every `int` exactly) and `lt = args(3).matrix_value()`.

    const int L = g.rows();
    const int lt1 = ltfat_round(lt(0));
    const int lt2 = ltfat_round(lt(1));
    ComplexMatrix mwin(L,lt2);
    nonsepwin2multi(g.fortran_vec(), L,a,M,lt1,lt2, mwin.data());
    return octave_value (mwin);
-/
def comp_nonsepwin2multi (kernel : Kernel) (g : ComplexMatrix) (a M : ℤ)
    (lt : RealMatrix) : Option ComplexMatrix :=
  let L : ℤ := g.rows
  (lt.elem 0).bind fun x0 =>
  (ltfat_round x0).bind fun lt1 =>
  (lt.elem 1).bind fun x1 =>
  (ltfat_round x1).bind fun lt2 =>
  if 0 ≤ lt2 then
    some (filled g.rows lt2.toNat (kernel g.data L a M lt1 lt2))
  else none

/-- Modelled from the spec: the C routine `nonsepwin2multi`, which the wrapper
calls and which is not among the sources.  Section 4.1 of the specification
fixes its result when `lt1 = 0`: every one of the `lt2` columns equals the
window.  For `lt1 ≠ 0` the specification leaves the index formula open, so
that case is the parameter `general`.  The output buffer is column-major with
`L` rows, hence cell `k` lies in row `k % L`. -/
def nonsepwin2multi (general : Kernel) : Kernel :=
  fun g L a M lt1 lt2 k =>
    if lt1 = 0 then g.getD (k % L.toNat) default else general g L a M lt1 lt2 k

/-! ## Inputs of the scenarios -/

/-- The window of the identity scenario, `g = [1+0i, 2+0i, 3+0i, 4+0i]`, as a
column. -/
def window4 : ComplexMatrix :=
  NDArray.columnVector [(1, 0), (2, 0), (3, 0), (4, 0)]

/-- A window with eight rows, for the shape scenario `L = 8`. -/
def window8 : ComplexMatrix :=
  NDArray.columnVector [(1, 0), (0, 1), (-1, 0), (0, -1), (2, 0), (0, 2), (-2, 0), (0, -2)]

/-- The empty window, `zeros (0, 1)`. -/
def window0 : ComplexMatrix := NDArray.columnVector []

/-! ## Facts about the arithmetic -/

theorem roundEven_sub_le (r : ℚ) : |(roundEven r : ℚ) - r| ≤ 1 / 2 := by
  have h1 := Int.floor_le r
  have h2 := Int.lt_floor_add_one r
  unfold roundEven
  split_ifs with ha hb hc
  · rw [abs_le]; constructor <;> linarith
  · push_cast; rw [abs_le]; constructor <;> linarith
  · have : r - ⌊r⌋ = 1 / 2 := le_antisymm (not_lt.mp hb) (not_lt.mp ha)
    rw [abs_le]; constructor <;> linarith
  · have : r - ⌊r⌋ = 1 / 2 := le_antisymm (not_lt.mp hb) (not_lt.mp ha)
    push_cast; rw [abs_le]; constructor <;> linarith

theorem roundEven_nonneg {r : ℚ} (h : 0 ≤ r) : 0 ≤ roundEven r := by
  have h0 : 0 ≤ ⌊r⌋ := Int.floor_nonneg.mpr h
  unfold roundEven
  split_ifs <;> omega

theorem ulp_pos (q : ℚ) : 0 < ulp q := by
  unfold ulp; positivity

/-- Rounding to binary64 keeps a non-negative number non-negative. -/
theorem fl_nonneg {q : ℚ} (h : 0 ≤ q) : 0 ≤ fl q := by
  unfold fl
  have hu := ulp_pos q
  have : 0 ≤ roundEven (q / ulp q) := roundEven_nonneg (div_nonneg h hu.le)
  have : (0 : ℚ) ≤ (roundEven (q / ulp q) : ℚ) := by exact_mod_cast this
  positivity

/-- Rounding to binary64 moves a number by at most half a unit in the last
place. -/
theorem fl_sub_le (q : ℚ) : |fl q - q| ≤ ulp q / 2 := by
  have hu := ulp_pos q
  have h := roundEven_sub_le (q / ulp q)
  have e : fl q - q = ((roundEven (q / ulp q) : ℚ) - q / ulp q) * ulp q := by
    unfold fl; field_simp
  rw [e, abs_mul, abs_of_pos hu]
  nlinarith

theorem ulp_le {q : ℚ} (h : (2 : ℚ) ^ (-1022 : ℤ) ≤ |q|) :
    ulp q ≤ |q| * (2 : ℚ) ^ (-52 : ℤ) := by
  have hq : 0 < |q| := lt_of_lt_of_le (by positivity) h
  have hl : (-1022 : ℤ) ≤ Int.log 2 |q| :=
    (Int.zpow_le_iff_le_log (by norm_num) hq).mp (by exact_mod_cast h)
  have hle : ((2 : ℕ) : ℚ) ^ Int.log 2 |q| ≤ |q| := Int.zpow_log_le_self (by norm_num) hq
  unfold ulp
  rw [max_eq_left hl, zpow_sub₀ (by norm_num), div_eq_mul_inv, ← zpow_neg]
  have : (0:ℚ) < (2 : ℚ) ^ (-52 : ℤ) := by positivity
  push_cast at hle
  nlinarith

/-- In the normal range the relative error of rounding is at most `2 ^ (-53)`. -/
theorem fl_rel_err {q : ℚ} (h : (2 : ℚ) ^ (-1022 : ℤ) ≤ |q|) :
    |fl q - q| ≤ |q| * (2 : ℚ) ^ (-53 : ℤ) := by
  have h1 := fl_sub_le q
  have h2 := ulp_le h
  have : |q| * (2 : ℚ) ^ (-53 : ℤ) = |q| * (2 : ℚ) ^ (-52 : ℤ) / 2 := by
    rw [show (-53 : ℤ) = -52 - 1 by norm_num, zpow_sub₀ (by norm_num)]; ring
  rw [this]
  generalize |q| * (2 : ℚ) ^ (-52 : ℤ) = c at h2 ⊢
  linarith

/-- A number of magnitude at least `1 / 4` is moved by rounding by at most the
fraction `2 ^ (-53)` of itself. -/
theorem fl_near {q : ℚ} (h : 1 / 4 ≤ |q|) : |fl q - q| ≤ |q| / 9007199254740992 := by
  have h2 : (2 : ℚ) ^ (-1022 : ℤ) ≤ |q| := by
    refine le_trans ?_ h
    rw [show (1 / 4 : ℚ) = (2 : ℚ) ^ (-2 : ℤ) by norm_num]
    exact zpow_le_zpow_right₀ (by norm_num) (by norm_num)
  have h3 := fl_rel_err h2
  have e : (2 : ℚ) ^ (-53 : ℤ) = 1 / 9007199254740992 := by norm_num
  rw [e] at h3
  linarith

/-- Rounding a number known to lie in `[lo, hi]`, `lo ≥ 1 / 4`. -/
theorem fl_mem_of_pos (q lo hi : ℚ) (hlo : 1 / 4 ≤ lo) (h1 : lo ≤ q) (h2 : q ≤ hi) :
    lo - hi / 9007199254740992 ≤ fl q ∧ fl q ≤ hi + hi / 9007199254740992 := by
  have hq : 0 < q := by linarith
  have h := fl_near (q := q) (by rw [abs_of_pos hq]; linarith)
  rw [abs_of_pos hq, abs_le] at h
  constructor <;> linarith [h.1, h.2]

/-- Rounding a number known to lie in `[lo, hi]`, `hi ≤ -1 / 4`. -/
theorem fl_mem_of_neg (q lo hi : ℚ) (hhi : hi ≤ -1 / 4) (h1 : lo ≤ q) (h2 : q ≤ hi) :
    lo + lo / 9007199254740992 ≤ fl q ∧ fl q ≤ hi - lo / 9007199254740992 := by
  have hq : q < 0 := by linarith
  have h := fl_near (q := q) (by rw [abs_of_neg hq]; linarith)
  rw [abs_of_neg hq, abs_le] at h
  constructor <;> linarith [h.1, h.2]

/-- The spacing around a number whose binary exponent `e` is known. -/
theorem ulp_of_mem {q : ℚ} (e : ℤ) (he : -1022 ≤ e) (h1 : (2 : ℚ) ^ e ≤ |q|)
    (h2 : |q| < (2 : ℚ) ^ (e + 1)) : ulp q = (2 : ℚ) ^ (e - 52) := by
  have hq : 0 < |q| := lt_of_lt_of_le (by positivity) h1
  have hl : Int.log 2 |q| = e := by
    apply le_antisymm
    · have := (Int.lt_zpow_iff_log_lt (R := ℚ) (b := 2) (by norm_num) hq).mp
        (by exact_mod_cast h2)
      omega
    · exact (Int.zpow_le_iff_le_log (R := ℚ) (b := 2) (by norm_num) hq).mp
        (by exact_mod_cast h1)
  unfold ulp
  rw [hl, max_eq_left he]

theorem roundEven_intCast (n : ℤ) : roundEven (n : ℚ) = n := by
  simp [roundEven]

/-- The largest double below `0.5`, which is `0.5 - 2 ^ (-54)`, is a value of
the format. -/
theorem fl_pred_half :
    fl (1 / 2 - 1 / 18014398509481984) = 1 / 2 - 1 / 18014398509481984 := by
  have hu : ulp (1 / 2 - 1 / 18014398509481984) = (2 : ℚ) ^ ((-2 : ℤ) - 52) :=
    ulp_of_mem (-2) (by decide) (by norm_num [abs_of_pos]) (by norm_num [abs_of_pos])
  unfold fl
  rw [hu]
  have e : (1 / 2 - 1 / 18014398509481984 : ℚ) / (2 : ℚ) ^ ((-2 : ℤ) - 52)
      = ((9007199254740991 : ℤ) : ℚ) := by norm_num
  rw [e, roundEven_intCast]
  norm_num

/-- Adding `0.5` to the largest double below `0.5` gives `1`: the exact sum
`1 - 2 ^ (-54)` lies halfway between two doubles and the tie goes to `1`. -/
theorem dadd_pred_half : dadd (1 / 2 - 1 / 18014398509481984) (1 / 2) = 1 := by
  have hu : ulp ((1 / 2 - 1 / 18014398509481984) + 1 / 2) = (2 : ℚ) ^ ((-1 : ℤ) - 52) :=
    ulp_of_mem (-1) (by decide) (by norm_num [abs_of_pos]) (by norm_num [abs_of_pos])
  unfold dadd fl
  rw [hu]
  have e : ((1 / 2 - 1 / 18014398509481984 : ℚ) + 1 / 2) / (2 : ℚ) ^ ((-1 : ℤ) - 52)
      = ((9007199254740991 : ℤ) : ℚ) + 1 / 2 := by norm_num
  have hf : ⌊((9007199254740991 : ℤ) : ℚ) + 1 / 2⌋ = 9007199254740991 := by
    rw [Int.floor_eq_iff]; norm_num
  have hr : roundEven (((9007199254740991 : ℤ) : ℚ) + 1 / 2) = 9007199254740992 := by
    unfold roundEven
    rw [hf]
    norm_num
  rw [e, hr]
  norm_num

/-- The double `2147483647.5` is a value of the format. -/
theorem fl_int_max_add_half : fl (4294967295 / 2) = 4294967295 / 2 := by
  have hu : ulp (4294967295 / 2) = (2 : ℚ) ^ ((30 : ℤ) - 52) :=
    ulp_of_mem 30 (by decide) (by norm_num [abs_of_pos]) (by norm_num [abs_of_pos])
  unfold fl
  rw [hu]
  have e : (4294967295 / 2 : ℚ) / (2 : ℚ) ^ ((30 : ℤ) - 52)
      = ((9007199252643840 : ℤ) : ℚ) := by norm_num
  rw [e, roundEven_intCast]
  norm_num

/-- Adding `0.5` to `2147483647.5` gives `2147483648`, without rounding. -/
theorem dadd_int_max_add_half : dadd (4294967295 / 2) (1 / 2) = 2147483648 := by
  have hu : ulp ((4294967295 / 2) + 1 / 2) = (2 : ℚ) ^ ((31 : ℤ) - 52) :=
    ulp_of_mem 31 (by decide) (by norm_num [abs_of_pos]) (by norm_num [abs_of_pos])
  unfold dadd fl
  rw [hu]
  have e : ((4294967295 / 2 : ℚ) + 1 / 2) / (2 : ℚ) ^ ((31 : ℤ) - 52)
      = ((4503599627370496 : ℤ) : ℚ) := by norm_num
  rw [e, roundEven_intCast]
  norm_num

/-! ## Facts about `ltfat_round` -/

theorem truncate_of_nonneg {d : ℚ} (h : 0 ≤ d) : truncate d = ⌊d⌋ := by
  simp [truncate, h]

theorem truncate_of_neg {d : ℚ} (h : d < 0) : truncate d = ⌈d⌉ := by
  simp [truncate, not_le.mpr h]

theorem toInt_of_truncate {d : ℚ} {n : ℤ} (h : truncate d = n) (hlo : INT_MIN ≤ n)
    (hhi : n ≤ INT_MAX) : toInt d = some n := by
  simp [toInt, h, hlo, hhi]

/-- The sum `x + .5` is non-negative as soon as `x ≥ -0.5`. -/
theorem dadd_half_nonneg {x : ℚ} (h : -1 / 2 ≤ x) : 0 ≤ dadd x (1 / 2) :=
  fl_nonneg (by linarith)

/-- The result of `ltfat_round` when the sum lies in `[n, n + 1)`, `n ≥ 0`. -/
theorem ltfat_round_of_bounds {x : ℚ} {n : ℤ} (h0 : 0 ≤ n) (hmax : n ≤ INT_MAX)
    (hl : (n : ℚ) ≤ dadd x (1 / 2)) (hu : dadd x (1 / 2) < n + 1) :
    ltfat_round x = some n := by
  have hs : (0 : ℚ) ≤ dadd x (1 / 2) := le_trans (by exact_mod_cast h0) hl
  refine toInt_of_truncate ?_ (le_trans (by decide) h0) hmax
  rw [truncate_of_nonneg hs, Int.floor_eq_iff]
  exact ⟨hl, hu⟩

/-- The result of `ltfat_round` when the sum lies in `(n - 1, n]`, `n ≤ 0`
and the sum is negative. -/
theorem ltfat_round_of_neg_bounds {x : ℚ} {n : ℤ} (hmin : INT_MIN ≤ n) (h0 : n ≤ 0)
    (hneg : dadd x (1 / 2) < 0)
    (hl : (n : ℚ) - 1 < dadd x (1 / 2)) (hu : dadd x (1 / 2) ≤ n) :
    ltfat_round x = some n := by
  refine toInt_of_truncate ?_ hmin (le_trans h0 (by decide))
  rw [truncate_of_neg hneg, Int.ceil_eq_iff]
  exact ⟨hl, hu⟩

/-- A non-negative `int` value passes through `ltfat_round` unchanged. -/
theorem ltfat_round_intCast {n : ℤ} (h0 : 0 ≤ n) (hmax : n ≤ INT_MAX) :
    ltfat_round (n : ℚ) = some n := by
  have hn0 : (0 : ℚ) ≤ n := by exact_mod_cast h0
  have hn1 : (n : ℚ) ≤ 2147483647 := by exact_mod_cast hmax
  have h := fl_mem_of_pos ((n : ℚ) + 1 / 2) ((n : ℚ) + 1 / 2) ((n : ℚ) + 1 / 2)
    (by linarith) le_rfl le_rfl
  refine ltfat_round_of_bounds h0 hmax ?_ ?_
  · unfold dadd; linarith [h.1]
  · unfold dadd; linarith [h.2]

/-! ## Facts about the wrapper -/

/-- What the wrapper returns once both lattice-type entries exist, both
conversions are defined and the column count is not negative. -/
theorem comp_nonsepwin2multi_eq (kernel : Kernel) (g : ComplexMatrix) (a M : ℤ)
    (lt : RealMatrix) {x0 x1 : ℚ} {lt1 lt2 : ℤ}
    (h0 : lt.elem 0 = some x0) (h1 : lt.elem 1 = some x1)
    (r1 : ltfat_round x0 = some lt1) (r2 : ltfat_round x1 = some lt2) (hc : 0 ≤ lt2) :
    comp_nonsepwin2multi kernel g a M lt
      = some (filled g.rows lt2.toNat (kernel g.data g.rows a M lt1 lt2)) := by
  simp [comp_nonsepwin2multi, h0, h1, r1, r2, hc]

/-- Every matrix the wrapper returns was built from the two rounded entries. -/
theorem comp_nonsepwin2multi_some {kernel : Kernel} {g : ComplexMatrix} {a M : ℤ}
    {lt : RealMatrix} {m : ComplexMatrix}
    (h : comp_nonsepwin2multi kernel g a M lt = some m) :
    ∃ x0 x1 lt1 lt2, lt.elem 0 = some x0 ∧ lt.elem 1 = some x1 ∧
      ltfat_round x0 = some lt1 ∧ ltfat_round x1 = some lt2 ∧ 0 ≤ lt2 ∧
      m = filled g.rows lt2.toNat (kernel g.data g.rows a M lt1 lt2) := by
  unfold comp_nonsepwin2multi at h
  simp only [Option.bind_eq_some] at h
  obtain ⟨x0, h0, lt1, r1, x1, h1, lt2, r2, h⟩ := h
  by_cases hc : 0 ≤ lt2
  · rw [if_pos hc] at h
    exact ⟨x0, x1, lt1, lt2, h0, h1, r1, r2, hc, (Option.some.inj h).symm⟩
  · rw [if_neg hc] at h
    exact absurd h (by simp)

/-- First element of a two-element row vector. -/
theorem elem_zero_rowVector {α : Type} (x y : α) :
    (NDArray.rowVector [x, y]).elem 0 = some x := rfl

/-- Second element of a two-element row vector. -/
theorem elem_one_rowVector {α : Type} (x y : α) :
    (NDArray.rowVector [x, y]).elem 1 = some y := rfl

/-- A column of a filled matrix lists the cells `j * r, ..., j * r + r - 1`. -/
theorem filled_column (r c : ℕ) (f : ℕ → ltfat_complex) {j : ℕ} (hj : j < c) :
    (filled r c f).column j = List.ofFn (fun i : Fin r => f (j * r + i)) := by
  have hle : j * r + r ≤ r * c := by
    calc j * r + r = (j + 1) * r := by ring
      _ ≤ c * r := Nat.mul_le_mul_right r hj
      _ = r * c := Nat.mul_comm c r
  apply List.ext_getElem
  · simp only [NDArray.column, filled, List.length_take, List.length_drop, List.length_ofFn]
    omega
  · intro i h1 h2
    simp [NDArray.column, filled]

/-- With `lt1 = 0` the modelled kernel leaves a copy of the stored window in
every column of an output that has as many rows as the window has samples. -/
theorem filled_nonsepwin2multi_column (general : Kernel) (w : List ltfat_complex)
    (a M lt2 : ℤ) (c : ℕ) {j : ℕ} (hj : j < c) :
    (filled w.length c (nonsepwin2multi general w w.length a M 0 lt2)).column j = w := by
  rw [filled_column _ _ _ hj]
  apply List.ext_getElem
  · simp
  · intro i h1 h2
    have hi : i < w.length := by simpa using h1
    have hm : (j * w.length + i) % w.length = i := by
      rw [Nat.mul_add_mod_of_lt hi]
    simp [nonsepwin2multi, hm, List.getElem?_eq_getElem hi]

/-! ## Concrete values of `ltfat_round` -/

/-- The sum computed for `x = -1` is `-0.5`, up to the rounding of `fl`. -/
theorem dadd_neg_one_mem :
    (-1 : ℚ) < dadd (-1) (1 / 2) ∧ dadd (-1) (1 / 2) < 0 := by
  have h := fl_mem_of_neg ((-1 : ℚ) + 1 / 2) (-1 / 2) (-1 / 2)
    (by norm_num) (by norm_num) (by norm_num)
  unfold dadd
  constructor
  · linarith [h.1]
  · linarith [h.2]

/-- The double nearest to `2.4` lies within `2 ^ (-50)` of it. -/
theorem fl_2_4_mem :
    (12 / 5 : ℚ) - 1 / 1125899906842624 ≤ fl (12 / 5) ∧
      fl (12 / 5) ≤ 12 / 5 + 1 / 1125899906842624 := by
  have h := fl_mem_of_pos ((12 / 5 : ℚ)) (12 / 5) (12 / 5)
    (by norm_num) le_rfl le_rfl
  constructor
  · linarith [h.1]
  · linarith [h.2]

/-- The double nearest to `3.6` lies within `2 ^ (-50)` of it. -/
theorem fl_3_6_mem :
    (18 / 5 : ℚ) - 1 / 1125899906842624 ≤ fl (18 / 5) ∧
      fl (18 / 5) ≤ 18 / 5 + 1 / 1125899906842624 := by
  have h := fl_mem_of_pos ((18 / 5 : ℚ)) (18 / 5) (18 / 5)
    (by norm_num) le_rfl le_rfl
  constructor
  · linarith [h.1]
  · linarith [h.2]

/-- The double nearest to `-1.2` lies within `2 ^ (-50)` of it. -/
theorem fl_neg_1_2_mem :
    (-6 / 5 : ℚ) - 1 / 1125899906842624 ≤ fl (-6 / 5) ∧
      fl (-6 / 5) ≤ -6 / 5 + 1 / 1125899906842624 := by
  have h := fl_mem_of_neg ((-6 / 5 : ℚ)) (-6 / 5) (-6 / 5)
    (by norm_num) le_rfl le_rfl
  constructor
  · linarith [h.1]
  · linarith [h.2]

theorem ltfat_round_2_4 : ltfat_round (fl (12 / 5)) = some 2 := by
  have hx := fl_2_4_mem
  have h := fl_mem_of_pos (fl (12 / 5) + 1 / 2) (28 / 10) (295 / 100)
    (by norm_num) (by linarith [hx.1]) (by linarith [hx.2])
  refine ltfat_round_of_bounds (by decide) (by decide) ?_ ?_
  · unfold dadd; push_cast; linarith [h.1]
  · unfold dadd; push_cast; linarith [h.2]

theorem ltfat_round_3_6 : ltfat_round (fl (18 / 5)) = some 4 := by
  have hx := fl_3_6_mem
  have h := fl_mem_of_pos (fl (18 / 5) + 1 / 2) (405 / 100) (415 / 100)
    (by norm_num) (by linarith [hx.1]) (by linarith [hx.2])
  refine ltfat_round_of_bounds (by decide) (by decide) ?_ ?_
  · unfold dadd; push_cast; linarith [h.1]
  · unfold dadd; push_cast; linarith [h.2]

theorem ltfat_round_neg_1_2 : ltfat_round (fl (-6 / 5)) = some 0 := by
  have hx := fl_neg_1_2_mem
  have h := fl_mem_of_neg (fl (-6 / 5) + 1 / 2) (-75 / 100) (-65 / 100)
    (by norm_num) (by linarith [hx.1]) (by linarith [hx.2])
  refine ltfat_round_of_neg_bounds (by decide) (by decide) ?_ ?_ ?_
  · unfold dadd; linarith [h.2]
  · unfold dadd; push_cast; linarith [h.1]
  · unfold dadd; push_cast; linarith [h.2]

theorem ltfat_round_neg_3 : ltfat_round (-3) = some (-2) := by
  have h := fl_mem_of_neg ((-3 : ℚ) + 1 / 2) (-5 / 2) (-5 / 2)
    (by norm_num) (by norm_num) (by norm_num)
  refine ltfat_round_of_neg_bounds (by decide) (by decide) ?_ ?_ ?_
  · unfold dadd; linarith [h.2]
  · unfold dadd; push_cast; linarith [h.1]
  · unfold dadd; push_cast; linarith [h.2]

theorem ltfat_round_neg_1 : ltfat_round (-1) = some 0 := by
  have h := dadd_neg_one_mem
  refine ltfat_round_of_neg_bounds (by decide) (by decide) h.2 ?_ ?_
  · push_cast; linarith [h.1]
  · push_cast; linarith [h.2]

theorem ltfat_round_zero : ltfat_round 0 = some 0 := by
  simpa using ltfat_round_intCast (n := 0) (by decide) (by decide)

theorem ltfat_round_one : ltfat_round 1 = some 1 := by
  simpa using ltfat_round_intCast (n := 1) (by decide) (by decide)

theorem ltfat_round_three : ltfat_round 3 = some 3 := by
  simpa using ltfat_round_intCast (n := 3) (by decide) (by decide)

/-- For `x ≥ -0.5` truncation and floor agree on the sum. -/
theorem ltfat_round_of_ge {x : ℚ} (hx : -1 / 2 ≤ x) (hfit : ⌊dadd x (1 / 2)⌋ ≤ INT_MAX) :
    ltfat_round x = some ⌊dadd x (1 / 2)⌋ := by
  have hs := dadd_half_nonneg hx
  refine toInt_of_truncate (truncate_of_nonneg hs) ?_ hfit
  exact le_trans (by decide) (Int.floor_nonneg.mpr hs)

/-- A number that is not an integer has its ceiling one above its floor. -/
theorem ceil_eq_floor_add_one_of_ne {d : ℚ} (h : ∀ n : ℤ, d ≠ n) : ⌈d⌉ = ⌊d⌋ + 1 := by
  rw [Int.ceil_eq_iff]
  constructor
  · have h1 := Int.floor_le d
    have h2 : (⌊d⌋ : ℚ) ≠ d := fun e => h ⌊d⌋ e.symm
    push_cast
    have := lt_of_le_of_ne h1 h2
    linarith
  · push_cast
    exact (Int.lt_floor_add_one d).le

/-- The floor of the sum computed for `x = 0.75` is `1`. -/
theorem floor_dadd_three_quarters : ⌊dadd (3 / 4) (1 / 2)⌋ = 1 := by
  have h := fl_mem_of_pos ((3 / 4 : ℚ) + 1 / 2) (5 / 4) (5 / 4)
    (by norm_num) (by norm_num) (by norm_num)
  rw [Int.floor_eq_iff]
  unfold dadd
  constructor
  · push_cast; linarith [h.1]
  · push_cast; linarith [h.2]

/-- The floor of the sum computed for `x = 2.75` is `3`. -/
theorem floor_dadd_eleven_quarters : ⌊dadd (11 / 4) (1 / 2)⌋ = 3 := by
  have h := fl_mem_of_pos ((11 / 4 : ℚ) + 1 / 2) (13 / 4) (13 / 4)
    (by norm_num) (by norm_num) (by norm_num)
  rw [Int.floor_eq_iff]
  unfold dadd
  constructor
  · push_cast; linarith [h.1]
  · push_cast; linarith [h.2]

/-- The sum computed for `x = -1.75` lies strictly between `-2` and `-1`. -/
theorem dadd_neg_seven_quarters_mem :
    (-2 : ℚ) < dadd (-7 / 4) (1 / 2) ∧ dadd (-7 / 4) (1 / 2) < -1 := by
  have h := fl_mem_of_neg ((-7 / 4 : ℚ) + 1 / 2) (-5 / 4) (-5 / 4)
    (by norm_num) (by norm_num) (by norm_num)
  unfold dadd
  constructor
  · linarith [h.1]
  · linarith [h.2]

/-- Why the statements below speak of the sum `x + .5` as the double addition
computes it.  The largest double below `0.5` is a value of the format; there
the computed sum is `1` and `ltfat_round` returns `1`, whereas the floor of the
exact sum is `0`. -/
theorem ltfat_round_pred_half :
    fl (1 / 2 - 1 / 18014398509481984) = 1 / 2 - 1 / 18014398509481984 ∧
      ltfat_round (1 / 2 - 1 / 18014398509481984) = some 1 ∧
      ⌊(1 / 2 - 1 / 18014398509481984 : ℚ) + 1 / 2⌋ = 0 := by
  refine ⟨fl_pred_half, ?_, ?_⟩
  · refine ltfat_round_of_bounds (by decide) (by decide) ?_ ?_
    · rw [dadd_pred_half]; norm_num
    · rw [dadd_pred_half]; norm_num
  · rw [Int.floor_eq_iff]; norm_num

/-! ## The claims -/

/-- C2, as the specification words it, fails at `x = -1`: the rounded value
`floor (-1 + 0.5) = -1` fits in an `int`, the sum is computed without error in
any reading (its floor is `-1`), and `ltfat_round (-1)` is `0`. -/
theorem ltfat_round_neg_one_not_floor :
    (INT_MIN ≤ ⌊(-1 : ℚ) + 1 / 2⌋ ∧ ⌊(-1 : ℚ) + 1 / 2⌋ ≤ INT_MAX) ∧
      ⌊(-1 : ℚ) + 1 / 2⌋ = -1 ∧ ⌊dadd (-1) (1 / 2)⌋ = -1 ∧
      ltfat_round (-1) = some 0 ∧ ltfat_round (-1) ≠ some ⌊(-1 : ℚ) + 1 / 2⌋ := by
  have e : ⌊(-1 : ℚ) + 1 / 2⌋ = -1 := by
    rw [Int.floor_eq_iff]; norm_num
  have hd := dadd_neg_one_mem
  have e2 : ⌊dadd (-1) (1 / 2)⌋ = -1 := by
    rw [Int.floor_eq_iff]
    constructor
    · push_cast; linarith [hd.1]
    · push_cast; linarith [hd.2]
  refine ⟨?_, e, e2, ltfat_round_neg_1, ?_⟩
  · rw [e]; decide
  · rw [e, ltfat_round_neg_1]; decide

/-- C2, amended: for lattice-type entries `x0, x1 ≥ -0.5` whose rounded value
fits in an `int`, `ltfat_round` returns the floor of the sum `x + 0.5` (the
sum as the double addition computes it), and these two values are the `lt1`
and `lt2` with which `comp_nonsepwin2multi` sizes its output and calls the
kernel. -/
theorem ltfat_round_eq_floor (x0 x1 : ℚ) (hx0 : -1 / 2 ≤ x0) (hx1 : -1 / 2 ≤ x1)
    (hfit0 : ⌊dadd x0 (1 / 2)⌋ ≤ INT_MAX) (hfit1 : ⌊dadd x1 (1 / 2)⌋ ≤ INT_MAX) :
    ltfat_round x0 = some ⌊dadd x0 (1 / 2)⌋ ∧
      ltfat_round x1 = some ⌊dadd x1 (1 / 2)⌋ ∧
      ∀ (kernel : Kernel) (g : ComplexMatrix) (a M : ℤ) (lt : RealMatrix),
        lt.elem 0 = some x0 → lt.elem 1 = some x1 →
        comp_nonsepwin2multi kernel g a M lt
          = some (filled g.rows ⌊dadd x1 (1 / 2)⌋.toNat
              (kernel g.data g.rows a M ⌊dadd x0 (1 / 2)⌋ ⌊dadd x1 (1 / 2)⌋)) := by
  have r0 := ltfat_round_of_ge hx0 hfit0
  have r1 := ltfat_round_of_ge hx1 hfit1
  refine ⟨r0, r1, ?_⟩
  intro kernel g a M lt h0 h1
  exact comp_nonsepwin2multi_eq kernel g a M lt h0 h1 r0 r1
    (Int.floor_nonneg.mpr (dadd_half_nonneg hx1))

/-- C2, amended, at `lt = [0.75, 2.75]`: the entries round to `1` and `3`. -/
theorem ltfat_round_eq_floor_witness :
    ltfat_round (3 / 4) = some ⌊dadd (3 / 4) (1 / 2)⌋ ∧
      ltfat_round (11 / 4) = some ⌊dadd (11 / 4) (1 / 2)⌋ ∧
      ∀ (kernel : Kernel) (g : ComplexMatrix) (a M : ℤ) (lt : RealMatrix),
        lt.elem 0 = some (3 / 4) → lt.elem 1 = some (11 / 4) →
        comp_nonsepwin2multi kernel g a M lt
          = some (filled g.rows ⌊dadd (11 / 4) (1 / 2)⌋.toNat
              (kernel g.data g.rows a M ⌊dadd (3 / 4) (1 / 2)⌋ ⌊dadd (11 / 4) (1 / 2)⌋)) :=
  ltfat_round_eq_floor (3 / 4) (11 / 4) (by norm_num) (by norm_num)
    (by rw [floor_dadd_three_quarters]; decide) (by rw [floor_dadd_eleven_quarters]; decide)

/-- C8, as the behaviour is worded (floor of `x + 0.5` for every `x ≥ -0.5`),
fails at two doubles.  At `x = 0.5 - 2 ^ (-54)` the floor of `x + 0.5` is `0`
and `ltfat_round` returns `1`, the addition having rounded the sum up to `1`.
At `x = 2147483647.5` the floor of `x + 0.5` is `2147483648`, which is no
`int`, and the conversion has no result. -/
theorem ltfat_round_not_floor_of_exact_sum :
    (fl (1 / 2 - 1 / 18014398509481984) = 1 / 2 - 1 / 18014398509481984 ∧
        (-1 / 2 : ℚ) ≤ 1 / 2 - 1 / 18014398509481984 ∧
        ⌊(1 / 2 - 1 / 18014398509481984 : ℚ) + 1 / 2⌋ = 0 ∧
        ltfat_round (1 / 2 - 1 / 18014398509481984) = some 1 ∧
        ltfat_round (1 / 2 - 1 / 18014398509481984)
          ≠ some ⌊(1 / 2 - 1 / 18014398509481984 : ℚ) + 1 / 2⌋) ∧
      (fl (4294967295 / 2) = 4294967295 / 2 ∧
        (-1 / 2 : ℚ) ≤ 4294967295 / 2 ∧
        ⌊(4294967295 / 2 : ℚ) + 1 / 2⌋ = 2147483648 ∧
        INT_MAX < ⌊(4294967295 / 2 : ℚ) + 1 / 2⌋ ∧
        ltfat_round (4294967295 / 2) = none) := by
  have h := ltfat_round_pred_half
  have f2 : ⌊(4294967295 / 2 : ℚ) + 1 / 2⌋ = 2147483648 := by
    rw [Int.floor_eq_iff]; norm_num
  have t2 : truncate (dadd (4294967295 / 2) (1 / 2)) = 2147483648 := by
    rw [dadd_int_max_add_half, truncate_of_nonneg (by norm_num), Int.floor_eq_iff]
    norm_num
  refine ⟨⟨h.1, by norm_num, h.2.2, h.2.1, ?_⟩, ⟨fl_int_max_add_half, by norm_num, f2, ?_, ?_⟩⟩
  · rw [h.2.1, h.2.2]; decide
  · rw [f2]; decide
  · unfold ltfat_round toInt
    rw [t2]
    decide

/-- C8, amended: `ltfat_round` is truncation toward zero of the sum `x + 0.5`
as the double addition computes it, and it has a result exactly when that
truncation is an `int`.  For `x ≥ -0.5` with the result in range it is the
floor of the computed sum; when the computed sum is negative and not an
integer, with the result in range, it is the ceiling of the computed sum, one
above its floor.  The double nearest to `-1.2` is rounded to `0`, and `-3` to
`-2`. -/
theorem ltfat_round_truncates :
    (∀ (x : ℚ) (n : ℤ), ltfat_round x = some n ↔
        truncate (dadd x (1 / 2)) = n ∧ INT_MIN ≤ n ∧ n ≤ INT_MAX) ∧
      (∀ x : ℚ, -1 / 2 ≤ x → ⌊dadd x (1 / 2)⌋ ≤ INT_MAX →
        ltfat_round x = some ⌊dadd x (1 / 2)⌋) ∧
      (∀ x : ℚ, dadd x (1 / 2) < 0 → (∀ n : ℤ, dadd x (1 / 2) ≠ n) →
        INT_MIN ≤ ⌈dadd x (1 / 2)⌉ →
        ltfat_round x = some ⌈dadd x (1 / 2)⌉ ∧
          ⌈dadd x (1 / 2)⌉ = ⌊dadd x (1 / 2)⌋ + 1) ∧
      ltfat_round (fl (-6 / 5)) = some 0 ∧ ltfat_round (-3) = some (-2) := by
  refine ⟨?_, ?_, ?_, ltfat_round_neg_1_2, ltfat_round_neg_3⟩
  · intro x n
    unfold ltfat_round toInt
    constructor
    · intro h
      split_ifs at h with hr
      have e := Option.some.inj h
      exact ⟨e, e ▸ hr.1, e ▸ hr.2⟩
    · rintro ⟨e, h1, h2⟩
      rw [if_pos ⟨e ▸ h1, e ▸ h2⟩, e]
  · intro x hx hfit
    exact ltfat_round_of_ge hx hfit
  · intro x hneg hni hfit
    refine ⟨toInt_of_truncate (truncate_of_neg hneg) hfit ?_, ceil_eq_floor_add_one_of_ne hni⟩
    have : ⌈dadd x (1 / 2)⌉ ≤ 0 := Int.ceil_le.mpr (by exact_mod_cast hneg.le)
    exact le_trans this (by decide)

/-- C8, amended, at `x = 0.75` (sum `1.25`, result its floor) and at `x = -1.75` (sum
`-1.25`, result its ceiling). -/
theorem ltfat_round_truncates_witness :
    ltfat_round (3 / 4) = some ⌊dadd (3 / 4) (1 / 2)⌋ ∧
      (ltfat_round (-7 / 4) = some ⌈dadd (-7 / 4) (1 / 2)⌉ ∧
        ⌈dadd (-7 / 4) (1 / 2)⌉ = ⌊dadd (-7 / 4) (1 / 2)⌋ + 1) := by
  have hd := dadd_neg_seven_quarters_mem
  have hc : ⌈dadd (-7 / 4) (1 / 2)⌉ = -1 := by
    rw [Int.ceil_eq_iff]
    constructor
    · push_cast; linarith [hd.1]
    · push_cast; linarith [hd.2]
  refine ⟨ltfat_round_truncates.2.1 (3 / 4) (by norm_num)
      (by rw [floor_dadd_three_quarters]; decide),
    ltfat_round_truncates.2.2.1 (-7 / 4) (by linarith [hd.2]) ?_ (by rw [hc]; decide)⟩
  intro n hn
  have h1 : (-2 : ℚ) < n := hn ▸ hd.1
  have h2 : (n : ℚ) < -1 := hn ▸ hd.2
  have h3 : (-2 : ℤ) < n := by exact_mod_cast h1
  have h4 : n < (-1 : ℤ) := by exact_mod_cast h2
  omega

/-- C9: a non-negative `int` value is a fixed point of `ltfat_round`, so a
lattice type given as two such integers reaches the allocation of the output
and the kernel call unchanged. -/
theorem ltfat_round_nonneg_int (n1 n2 : ℤ) (h1 : 0 ≤ n1) (h1max : n1 ≤ INT_MAX)
    (h2 : 0 ≤ n2) (h2max : n2 ≤ INT_MAX) :
    ltfat_round (n1 : ℚ) = some n1 ∧ ltfat_round (n2 : ℚ) = some n2 ∧
      ∀ (kernel : Kernel) (g : ComplexMatrix) (a M : ℤ) (lt : RealMatrix),
        lt.elem 0 = some (n1 : ℚ) → lt.elem 1 = some (n2 : ℚ) →
        comp_nonsepwin2multi kernel g a M lt
          = some (filled g.rows n2.toNat (kernel g.data g.rows a M n1 n2)) := by
  have r1 := ltfat_round_intCast h1 h1max
  have r2 := ltfat_round_intCast h2 h2max
  exact ⟨r1, r2, fun kernel g a M lt e0 e1 =>
    comp_nonsepwin2multi_eq kernel g a M lt e0 e1 r1 r2 h2⟩

/-- C9 at the lattice type `(5, 2147483647)`. -/
theorem ltfat_round_nonneg_int_witness :
    ltfat_round ((5 : ℤ) : ℚ) = some 5 ∧ ltfat_round ((2147483647 : ℤ) : ℚ) = some 2147483647 ∧
      ∀ (kernel : Kernel) (g : ComplexMatrix) (a M : ℤ) (lt : RealMatrix),
        lt.elem 0 = some ((5 : ℤ) : ℚ) → lt.elem 1 = some ((2147483647 : ℤ) : ℚ) →
        comp_nonsepwin2multi kernel g a M lt
          = some (filled g.rows (2147483647 : ℤ).toNat
              (kernel g.data g.rows a M 5 2147483647)) :=
  ltfat_round_nonneg_int 5 2147483647 (by decide) (by decide) (by decide) (by decide)

/-- C3: the lattice type `[2.4, 3.6]` (the two doubles nearest to these
numbers) is rounded to `lt1 = 2` and `lt2 = 4`; whatever the window, `a` and
`M`, the output is allocated with 4 columns and the kernel is called with
`(lt1, lt2) = (2, 4)`. -/
theorem rounding_scenario :
    ltfat_round (fl (12 / 5)) = some 2 ∧ ltfat_round (fl (18 / 5)) = some 4 ∧
      ∀ (kernel : Kernel) (g : ComplexMatrix) (a M : ℤ),
        comp_nonsepwin2multi kernel g a M (NDArray.rowVector [fl (12 / 5), fl (18 / 5)])
            = some (filled g.rows 4 (kernel g.data g.rows a M 2 4)) ∧
          (filled g.rows 4 (kernel g.data g.rows a M 2 4)).cols = 4 := by
  refine ⟨ltfat_round_2_4, ltfat_round_3_6, fun kernel g a M => ⟨?_, rfl⟩⟩
  exact comp_nonsepwin2multi_eq kernel g a M (NDArray.rowVector [fl (12 / 5), fl (18 / 5)])
    (elem_zero_rowVector _ _) (elem_one_rowVector _ _) ltfat_round_2_4 ltfat_round_3_6 (by decide)

/-- C1: when the two lattice-type entries round to `(lt1, lt2)` with
`0 ≤ lt1 < lt2`, the wrapper returns a matrix with as many rows as `g` and
exactly `lt2` columns. -/
theorem comp_nonsepwin2multi_shape (kernel : Kernel) (g : ComplexMatrix) (a M : ℤ)
    (lt : RealMatrix) (x0 x1 : ℚ) (lt1 lt2 : ℤ)
    (h0 : lt.elem 0 = some x0) (h1 : lt.elem 1 = some x1)
    (r1 : ltfat_round x0 = some lt1) (r2 : ltfat_round x1 = some lt2)
    (hlo : 0 ≤ lt1) (hlt : lt1 < lt2) :
    ∃ m, comp_nonsepwin2multi kernel g a M lt = some m ∧
      m.rows = g.rows ∧ (m.cols : ℤ) = lt2 := by
  have hc : 0 ≤ lt2 := le_trans hlo hlt.le
  exact ⟨_, comp_nonsepwin2multi_eq kernel g a M lt h0 h1 r1 r2 hc, rfl, Int.toNat_of_nonneg hc⟩

/-- C1 at the scenario `L = 8`, `a = 2`, `M = 4`, `lt = [1, 3]`: the result is
`8 × 3`, whichever kernel is linked. -/
theorem comp_nonsepwin2multi_shape_witness :
    window8.rows = 8 ∧
      ∀ kernel : Kernel, ∃ m,
        comp_nonsepwin2multi kernel window8 2 4 (NDArray.rowVector [1, 3]) = some m ∧
          m.rows = window8.rows ∧ (m.cols : ℤ) = 3 :=
  ⟨rfl, fun kernel =>
    comp_nonsepwin2multi_shape kernel window8 2 4 (NDArray.rowVector [1, 3]) 1 3 1 3
      (elem_zero_rowVector _ _) (elem_one_rowVector _ _) ltfat_round_one ltfat_round_three
      (by decide) (by decide)⟩

/-- C4, as the specification words it, fails: with `lt = [3, 1]`, which
rounds to `lt1 = 3 ≥ lt2 = 1`, the wrapper allocates the `4 × 1` output, calls
the kernel with `(3, 1)` and returns the matrix. -/
theorem lattice_type_not_rejected :
    (ltfat_round 3 = some 3 ∧ ltfat_round 1 = some 1 ∧ (1 : ℤ) ≤ 3) ∧
      (∀ kernel : Kernel,
        comp_nonsepwin2multi kernel window4 2 2 (NDArray.rowVector [3, 1])
          = some (filled 4 1 (kernel window4.data 4 2 2 3 1))) ∧
      (∀ kernel : Kernel,
        comp_nonsepwin2multi kernel window4 2 2 (NDArray.rowVector [3, 1]) ≠ none) := by
  have key : ∀ kernel : Kernel,
      comp_nonsepwin2multi kernel window4 2 2 (NDArray.rowVector [3, 1])
        = some (filled 4 1 (kernel window4.data 4 2 2 3 1)) := fun kernel =>
    comp_nonsepwin2multi_eq kernel window4 2 2 (NDArray.rowVector [3, 1])
      (elem_zero_rowVector _ _) (elem_one_rowVector _ _) ltfat_round_three ltfat_round_one
      (by decide)
  refine ⟨⟨ltfat_round_three, ltfat_round_one, by decide⟩, key, fun kernel => ?_⟩
  rw [key kernel]
  exact Option.some_ne_none _

/-- C4, amended: the wrapper makes no check of the lattice type.  When the
entries round to `(lt1, lt2)` with `lt2 = 0` or `lt1 ≥ lt2`, and `lt2` is not
negative, it allocates the `L × lt2` matrix, calls the kernel with
`(L, a, M, lt1, lt2)` and returns the matrix. -/
theorem comp_nonsepwin2multi_unchecked_lattice (kernel : Kernel) (g : ComplexMatrix)
    (a M : ℤ) (lt : RealMatrix) (x0 x1 : ℚ) (lt1 lt2 : ℤ)
    (h0 : lt.elem 0 = some x0) (h1 : lt.elem 1 = some x1)
    (r1 : ltfat_round x0 = some lt1) (r2 : ltfat_round x1 = some lt2)
    (_hbad : lt2 = 0 ∨ lt2 ≤ lt1) (hc : 0 ≤ lt2) :
    comp_nonsepwin2multi kernel g a M lt
        = some (filled g.rows lt2.toNat (kernel g.data g.rows a M lt1 lt2)) ∧
      (filled g.rows lt2.toNat (kernel g.data g.rows a M lt1 lt2)).rows = g.rows ∧
      ((filled g.rows lt2.toNat (kernel g.data g.rows a M lt1 lt2)).cols : ℤ) = lt2 :=
  ⟨comp_nonsepwin2multi_eq kernel g a M lt h0 h1 r1 r2 hc, rfl, Int.toNat_of_nonneg hc⟩

/-- C4, amended, at `lt = [3, 1]` with the four-sample window. -/
theorem comp_nonsepwin2multi_unchecked_lattice_witness :
    ((1 : ℤ) = 0 ∨ (1 : ℤ) ≤ 3) ∧
      ∀ kernel : Kernel,
        comp_nonsepwin2multi kernel window4 2 2 (NDArray.rowVector [3, 1])
            = some (filled window4.rows (1 : ℤ).toNat
                (kernel window4.data window4.rows 2 2 3 1)) ∧
          (filled window4.rows (1 : ℤ).toNat
              (kernel window4.data window4.rows 2 2 3 1)).rows = window4.rows ∧
          ((filled window4.rows (1 : ℤ).toNat
              (kernel window4.data window4.rows 2 2 3 1)).cols : ℤ) = 1 :=
  ⟨Or.inr (by decide), fun kernel =>
    comp_nonsepwin2multi_unchecked_lattice kernel window4 2 2 (NDArray.rowVector [3, 1])
      3 1 3 1 (elem_zero_rowVector _ _) (elem_one_rowVector _ _)
      ltfat_round_three ltfat_round_one (Or.inr (by decide)) (by decide)⟩

/-- C5, as the specification words it, fails: with `a = 0`, and with the empty
window (`L = 0`), the wrapper calls the kernel with these values and returns a
matrix, `4 × 1` and `0 × 1`. -/
theorem length_and_parameter_not_rejected :
    (window4.rows = 4 ∧ window0.rows = 0) ∧
      (∀ kernel : Kernel,
        comp_nonsepwin2multi kernel window4 0 2 (NDArray.rowVector [0, 1])
          = some (filled 4 1 (kernel window4.data 4 0 2 0 1))) ∧
      (∀ kernel : Kernel,
        comp_nonsepwin2multi kernel window0 2 2 (NDArray.rowVector [0, 1])
          = some (filled 0 1 (kernel window0.data 0 2 2 0 1))) :=
  ⟨⟨rfl, rfl⟩,
    fun kernel => comp_nonsepwin2multi_eq kernel window4 0 2 (NDArray.rowVector [0, 1])
      (elem_zero_rowVector _ _) (elem_one_rowVector _ _) ltfat_round_zero ltfat_round_one
      (by decide),
    fun kernel => comp_nonsepwin2multi_eq kernel window0 2 2 (NDArray.rowVector [0, 1])
      (elem_zero_rowVector _ _) (elem_one_rowVector _ _) ltfat_round_zero ltfat_round_one
      (by decide)⟩

/-- C5, amended: the wrapper makes no check of `L`, `a` or `M`.  When `L ≤ 0`,
`a ≤ 0` or `M ≤ 0`, and the lattice-type entries round to `(lt1, lt2)` with
`lt2` not negative, it allocates the `L × lt2` matrix, calls the kernel with
`(L, a, M, lt1, lt2)` and returns the matrix. -/
theorem comp_nonsepwin2multi_unchecked_parameters (kernel : Kernel) (g : ComplexMatrix)
    (a M : ℤ) (lt : RealMatrix) (x0 x1 : ℚ) (lt1 lt2 : ℤ)
    (h0 : lt.elem 0 = some x0) (h1 : lt.elem 1 = some x1)
    (r1 : ltfat_round x0 = some lt1) (r2 : ltfat_round x1 = some lt2) (hc : 0 ≤ lt2)
    (_hbad : (g.rows : ℤ) ≤ 0 ∨ a ≤ 0 ∨ M ≤ 0) :
    comp_nonsepwin2multi kernel g a M lt
        = some (filled g.rows lt2.toNat (kernel g.data g.rows a M lt1 lt2)) ∧
      (filled g.rows lt2.toNat (kernel g.data g.rows a M lt1 lt2)).rows = g.rows ∧
      ((filled g.rows lt2.toNat (kernel g.data g.rows a M lt1 lt2)).cols : ℤ) = lt2 :=
  ⟨comp_nonsepwin2multi_eq kernel g a M lt h0 h1 r1 r2 hc, rfl, Int.toNat_of_nonneg hc⟩

/-- C5, amended, at `a = 0`, `M = 2` with the four-sample window and
`lt = [0, 1]`. -/
theorem comp_nonsepwin2multi_unchecked_parameters_witness :
    ((window4.rows : ℤ) ≤ 0 ∨ (0 : ℤ) ≤ 0 ∨ (2 : ℤ) ≤ 0) ∧
      ∀ kernel : Kernel,
        comp_nonsepwin2multi kernel window4 0 2 (NDArray.rowVector [0, 1])
            = some (filled window4.rows (1 : ℤ).toNat
                (kernel window4.data window4.rows 0 2 0 1)) ∧
          (filled window4.rows (1 : ℤ).toNat
              (kernel window4.data window4.rows 0 2 0 1)).rows = window4.rows ∧
          ((filled window4.rows (1 : ℤ).toNat
              (kernel window4.data window4.rows 0 2 0 1)).cols : ℤ) = 1 :=
  ⟨Or.inr (Or.inl le_rfl), fun kernel =>
    comp_nonsepwin2multi_unchecked_parameters kernel window4 0 2
      (NDArray.rowVector [0, 1]) 0 1 0 1 (elem_zero_rowVector _ _) (elem_one_rowVector _ _)
      ltfat_round_zero ltfat_round_one (by decide) (Or.inr (Or.inl le_rfl))⟩

/-- C6, against the kernel as the specification describes it: for a window `g`
of length `L > 0` (one column), `a > 0`, `M > 0`, a first lattice-type entry
that rounds to `lt1 = 0` and a second that rounds to `lt2 ≥ 1`, the wrapper
returns an `L × lt2` matrix every column of which equals `g`. -/
theorem identity_on_separable_lattice (general : Kernel) (g : ComplexMatrix) (a M : ℤ)
    (lt : RealMatrix) (x0 x1 : ℚ) (lt2 : ℤ)
    (hg : g.cols = 1) (_hL : 0 < g.rows) (_ha : 0 < a) (_hM : 0 < M)
    (h0 : lt.elem 0 = some x0) (h1 : lt.elem 1 = some x1)
    (r1 : ltfat_round x0 = some 0) (r2 : ltfat_round x1 = some lt2) (h2 : 1 ≤ lt2) :
    ∃ m, comp_nonsepwin2multi (nonsepwin2multi general) g a M lt = some m ∧
      m.rows = g.rows ∧ (m.cols : ℤ) = lt2 ∧ ∀ j < m.cols, m.column j = g.data := by
  have hc : 0 ≤ lt2 := le_trans (by decide) h2
  have hlen : g.data.length = g.rows := by rw [g.size_eq, hg, Nat.mul_one]
  refine ⟨_, comp_nonsepwin2multi_eq (nonsepwin2multi general) g a M lt h0 h1 r1 r2 hc,
    rfl, Int.toNat_of_nonneg hc, ?_⟩
  intro j hj
  have hj2 : j < lt2.toNat := hj
  have key := filled_nonsepwin2multi_column general g.data a M lt2 lt2.toNat hj2
  rw [hlen] at key
  exact key

/-- C6 at the scenario `g = [1, 2, 3, 4]`, `a = 2`, `M = 2`, `lt = [0, 1]`: the
result is a `4 × 1` matrix whose column is `g`; it is the matrix `g` itself. -/
theorem identity_on_separable_lattice_witness :
    (∀ general : Kernel, ∃ m,
        comp_nonsepwin2multi (nonsepwin2multi general) window4 2 2 (NDArray.rowVector [0, 1])
          = some m ∧
        m.rows = window4.rows ∧ (m.cols : ℤ) = 1 ∧ ∀ j < m.cols, m.column j = window4.data) ∧
      (∀ general : Kernel,
        comp_nonsepwin2multi (nonsepwin2multi general) window4 2 2 (NDArray.rowVector [0, 1])
          = some window4) := by
  constructor
  · intro general
    exact identity_on_separable_lattice general window4 2 2 (NDArray.rowVector [0, 1]) 0 1 1
      rfl (by decide) (by decide) (by decide)
      (elem_zero_rowVector _ _) (elem_one_rowVector _ _) ltfat_round_zero ltfat_round_one
      (by decide)
  · intro general
    rw [comp_nonsepwin2multi_eq (nonsepwin2multi general) window4 2 2
      (NDArray.rowVector [0, 1]) (elem_zero_rowVector _ _) (elem_one_rowVector _ _)
      ltfat_round_zero ltfat_round_one (by decide)]
    congr 1

/-- C10: two calls that agree on the row count of `g` and on `lt(1)` return
matrices of the same shape, whatever `a`, `M`, `lt(0)` and the window samples
are. -/
theorem comp_nonsepwin2multi_shape_depends (kernel : Kernel) (g g' : ComplexMatrix)
    (a a' M M' : ℤ) (lt lt' : RealMatrix) (m m' : ComplexMatrix)
    (hrows : g.rows = g'.rows) (hlt : lt.elem 1 = lt'.elem 1)
    (h : comp_nonsepwin2multi kernel g a M lt = some m)
    (h' : comp_nonsepwin2multi kernel g' a' M' lt' = some m') :
    m.rows = m'.rows ∧ m.cols = m'.cols := by
  obtain ⟨x0, x1, lt1, lt2, -, e1, -, r2, -, rfl⟩ := comp_nonsepwin2multi_some h
  obtain ⟨y0, y1, k1, k2, -, f1, -, s2, -, rfl⟩ := comp_nonsepwin2multi_some h'
  have exy : x1 = y1 := Option.some.inj (e1.symm.trans (hlt.trans f1))
  subst exy
  have ek : lt2 = k2 := Option.some.inj (r2.symm.trans s2)
  subst ek
  exact ⟨hrows, rfl⟩

/-- C10 at two calls that share only the row count `4` and `lt(1) = 3`: the
windows, `a`, `M` and `lt(0)` differ, and both results are `4 × 3`. -/
theorem comp_nonsepwin2multi_shape_depends_witness :
    (∀ kernel : Kernel,
        comp_nonsepwin2multi kernel window4 2 2 (NDArray.rowVector [1, 3])
          = some (filled 4 3 (kernel window4.data 4 2 2 1 3))) ∧
      (∀ kernel : Kernel,
        comp_nonsepwin2multi kernel (NDArray.columnVector [(0, 1), (0, 2), (5, 0), (7, 7)])
            3 8 (NDArray.rowVector [0, 3])
          = some (filled 4 3
              (kernel [(0, 1), (0, 2), (5, 0), (7, 7)] 4 3 8 0 3))) ∧
      ∀ kernel : Kernel,
        (filled 4 3 (kernel window4.data 4 2 2 1 3)).rows
            = (filled 4 3 (kernel [(0, 1), (0, 2), (5, 0), (7, 7)] 4 3 8 0 3)).rows ∧
          (filled 4 3 (kernel window4.data 4 2 2 1 3)).cols
            = (filled 4 3 (kernel [(0, 1), (0, 2), (5, 0), (7, 7)] 4 3 8 0 3)).cols := by
  have c1 : ∀ kernel : Kernel,
      comp_nonsepwin2multi kernel window4 2 2 (NDArray.rowVector [1, 3])
        = some (filled 4 3 (kernel window4.data 4 2 2 1 3)) := fun kernel =>
    comp_nonsepwin2multi_eq kernel window4 2 2 (NDArray.rowVector [1, 3])
      (elem_zero_rowVector _ _) (elem_one_rowVector _ _) ltfat_round_one ltfat_round_three
      (by decide)
  have c2 : ∀ kernel : Kernel,
      comp_nonsepwin2multi kernel (NDArray.columnVector [(0, 1), (0, 2), (5, 0), (7, 7)])
          3 8 (NDArray.rowVector [0, 3])
        = some (filled 4 3 (kernel [(0, 1), (0, 2), (5, 0), (7, 7)] 4 3 8 0 3)) := fun kernel =>
    comp_nonsepwin2multi_eq kernel (NDArray.columnVector [(0, 1), (0, 2), (5, 0), (7, 7)])
      3 8 (NDArray.rowVector [0, 3])
      (elem_zero_rowVector _ _) (elem_one_rowVector _ _) ltfat_round_zero ltfat_round_three
      (by decide)
  exact ⟨c1, c2, fun kernel =>
    comp_nonsepwin2multi_shape_depends kernel window4
      (NDArray.columnVector [(0, 1), (0, 2), (5, 0), (7, 7)]) 2 3 2 8
      (NDArray.rowVector [1, 3]) (NDArray.rowVector [0, 3]) _ _ rfl rfl (c1 kernel) (c2 kernel)⟩

end Ltfat
